import Mathlib

/-!
# Verification of the doxybook2 index loader

A shallow embedding of `src/Doxydown/Doxygen.cpp` (the index loader of the
doxybook2 repository) together with proofs about its load protocol.

The C++ heap of reference-counted `Node` objects is modelled as an explicit
store: nodes are identified by allocation ids (`Nat`), node data lives in an
association list keyed by id, and the refid cache is an association list from
refid strings to node ids.  `Node::parse` and `Node::finalize` live in
`Node.cpp`, which is not part of the available sources; they are modelled from
the specification as marked below.  Everything else follows `Doxygen.cpp`.
-/

namespace Doxydown

/-- Generic association-list lookup (first match wins), used for both the node
heap (keyed by node id) and the refid cache (keyed by refid). -/
def lookupA {K V : Type} [DecidableEq K] : List (K × V) → K → Option V
  | [], _ => none
  | (k, v) :: l, k' => if k = k' then some v else lookupA l k'

/-- One documented entity: `refid`, `kind`, the non-owning parent
back-reference (a node id), the owned ordered `children` (node ids), and the
deferred-detail flag (`finalized` is set only by `Node::finalize`). -/
structure NodeData where
  refid : String
  kind : String
  parent : Option Nat
  children : List Nat
  finalized : Bool
deriving DecidableEq, Repr

/-- The mutable world of a load: the next fresh node id, the heap of allocated
nodes, and the refid cache (`NodeCacheMap`). -/
structure Store where
  next : Nat
  nodes : List (Nat × NodeData)
  cache : List (String × Nat)
deriving DecidableEq, Repr

def lookupN (st : Store) (i : Nat) : Option NodeData :=
  lookupA st.nodes i

/-- Replace the data of node `i` (no-op when `i` is not allocated). -/
def updateN (st : Store) (i : Nat) (f : NodeData → NodeData) : Store :=
  { st with nodes := st.nodes.map (fun p => if p.1 = i then (p.1, f p.2) else p) }

def cacheFind (st : Store) (r : String) : Option Nat :=
  lookupA st.cache r

/-- Modelled from the spec: `NodeCacheMap` is declared in a header that is not
part of the available sources; the spec describes it as a mapping from `refid`
to the node, where an insertion makes the new entry visible to subsequent
lookups.  We prepend entries, and `cacheFind` returns the newest entry. -/
def cacheInsert (st : Store) (r : String) (i : Nat) : Store :=
  { st with cache := (r, i) :: st.cache }

def parentOf (st : Store) (i : Nat) : Option Nat :=
  match lookupN st i with
  | some nd => nd.parent
  | none => none

def childrenOf (st : Store) (i : Nat) : List Nat :=
  match lookupN st i with
  | some nd => nd.children
  | none => []

def refidOf (st : Store) (i : Nat) : String :=
  match lookupN st i with
  | some nd => nd.refid
  | none => ""

/-- Allocate a fresh node for `refid` with kind `k` and record it in the
cache; returns the new store and the new node's id. -/
def alloc (st : Store) (r k : String) : Store × Nat :=
  ({ next := st.next + 1,
     nodes := (st.next, ⟨r, k, none, [], false⟩) :: st.nodes,
     cache := (r, st.next) :: st.cache }, st.next)

/-- `child->parent = parent; parent->children.push_back(child);` -/
def addChild (st : Store) (parent child : Nat) : Store :=
  let st1 := updateN st child (fun nd => { nd with parent := some parent })
  updateN st1 parent (fun nd => { nd with children := nd.children ++ [child] })

/-- One per-entity XML document, as seen by `Node::parse`: the entity's kind,
its compound children (always expanded) and its member children (expanded only
when `recurseMembers` is set). -/
structure Doc where
  kind : String
  compounds : List String
  members : List String
deriving DecidableEq, Repr

mutual

/-- Modelled from the spec: `Node::parse` (in `Node.cpp`, not part of the
available sources).  Given a refid it loads the per-entity document,
allocates the node (recording it in the cache), and processes its structural
children: a child already in the cache is re-claimed (its `parent`
back-reference is redirected to this node and it is appended to this node's
`children`), an uncached child is parsed recursively and then attached the
same way.  A missing document, a failing child parse, or fuel exhaustion
fails the whole call; the caller observes failure with the pre-call store
(per-entity failures are caught by the caller and leave its state as it was).
-/
def parse (docs : String → Option Doc) : Nat → Store → String → Bool →
    Option (Store × Nat)
  | 0, _, _, _ => none
  | fuel + 1, st, refid, rec =>
    match docs refid with
    | none => none
    | some doc =>
      let p := alloc st refid doc.kind
      let kids := doc.compounds ++ (if rec then doc.members else [])
      match parseChildren docs fuel p.1 p.2 kids rec with
      | none => none
      | some st2 => some (st2, p.2)

/-- Modelled from the spec: the child-processing loop of `Node::parse`
(see `parse`). -/
def parseChildren (docs : String → Option Doc) : Nat → Store → Nat →
    List String → Bool → Option Store
  | 0, _, _, _, _ => none
  | _ + 1, st, _, [], _ => some st
  | fuel + 1, st, parent, c :: cs, rec =>
    match cacheFind st c with
    | some cid =>
      parseChildren docs fuel (addChild st parent cid) parent cs rec
    | none =>
      match parse docs fuel st c rec with
      | none => none
      | some q =>
        parseChildren docs fuel (addChild q.1 parent q.2) parent cs rec

end

/-- `isKindAllowedLanguage` (Doxygen.cpp, lines 14-26). -/
def isKindAllowedLanguage (kind : String) : Bool :=
  kind == "namespace" || kind == "class" || kind == "struct" ||
  kind == "interface" || kind == "function" || kind == "variable" ||
  kind == "typedef" || kind == "enum"

/-- `isKindAllowedGroup` (Doxygen.cpp, lines 28-30). -/
def isKindAllowedGroup (kind : String) : Bool :=
  kind == "group"

/-- `isKindAllowedDirs` (Doxygen.cpp, lines 32-34). -/
def isKindAllowedDirs (kind : String) : Bool :=
  kind == "dir" || kind == "file"

/-- A `<compound>` element of `index.xml`; either attribute may be absent. -/
structure Compound where
  kind : Option String
  refid : Option String
deriving DecidableEq, Repr

/-- The top-level `index.xml` document: whether the `doxygenindex` root
element is present, and its `<compound>` children. -/
structure IndexXml where
  hasRoot : Bool
  compounds : List Compound
deriving DecidableEq, Repr

/-- `Doxygen::getIndexKinds` (Doxygen.cpp, lines 129-154): a missing
`doxygenindex` root or the absence of any `<compound>` element is fatal;
a `<compound>` lacking its `kind` or `refid` attribute is logged as a
warning and skipped. -/
def getIndexKinds (xml : IndexXml) : Except String (List (String × String)) :=
  if !xml.hasRoot then
    Except.error "Unable to find root element"
  else if xml.compounds.isEmpty then
    Except.error "No compound element"
  else
    Except.ok (xml.compounds.filterMap (fun c =>
      match c.kind, c.refid with
      | some k, some r => some (k, r)
      | _, _ => none))

/-- The `cleanup` lambda of `Doxygen::load` (Doxygen.cpp, lines 43-52):
remove from `n`'s children every node whose `parent` back-reference is not
`n`. -/
def cleanup (st : Store) (n : Nat) : Store :=
  updateN st n (fun nd =>
    { nd with children := nd.children.filter (fun c => parentOf st c == some n) })

/-- The body of each phase loop of `Doxygen::load` (lines 61-72, 81-92,
100-111): skip a refid already in the cache; otherwise parse it, attach the
node to the root, and set its parent to the root when still unset.  A parse
failure is caught: the entry is skipped and the store is left unchanged. -/
def loadEntry (docs : String → Option Doc) (fuel : Nat) (rec : Bool)
    (rootId : Nat) (st : Store) (refid : String) : Store :=
  match cacheFind st refid with
  | some _ => st
  | none =>
    match parse docs fuel st refid rec with
    | none => st
    | some q =>
      let st1 := updateN q.1 rootId (fun nd => { nd with children := nd.children ++ [q.2] })
      if parentOf st1 q.2 = none then
        updateN st1 q.2 (fun nd => { nd with parent := some rootId })
      else st1

/-- One construction phase: iterate the kind/refid list, processing the
entries whose kind the phase's predicate accepts. -/
def phasePass (docs : String → Option Doc) (fuel : Nat)
    (pred : String → Bool) (rec : Bool) (rootId : Nat)
    (entries : List (String × String)) (st : Store) : Store :=
  entries.foldl
    (fun st p => if pred p.1 then loadEntry docs fuel rec rootId st p.2 else st) st

/-- `Doxygen::getIndexCache` (Doxygen.cpp, lines 156-161): depth-first over
the children lists, inserting every visited node into the cache keyed by its
refid.  The list argument holds the ids still to visit at the current level;
fuel bounds the recursion depth of the embedding. -/
def rebuildCache : Nat → Store → List Nat → Store
  | 0, st, _ => st
  | _ + 1, st, [] => st
  | fuel + 1, st, c :: cs =>
    let st1 := cacheInsert st (refidOf st c) c
    let st2 := rebuildCache fuel st1 (childrenOf st1 c)
    rebuildCache fuel st2 cs

/-- The node ids visited by `rebuildCache`, same traversal, same fuel. -/
def treeIds : Nat → Store → List Nat → List Nat
  | 0, _, _ => []
  | _ + 1, _, [] => []
  | fuel + 1, st, c :: cs =>
    c :: (treeIds fuel st (childrenOf st c) ++ treeIds fuel st cs)

/-- The root node built by the `Doxygen` constructor (Doxygen.cpp, lines
36-39): `Node("index")` with no parent and no children; the heap starts with
only the root (id 0), and the cache starts empty. -/
def initialStore : Store :=
  { next := 1, nodes := [(0, ⟨"index", "", none, [], false⟩)], cache := [] }

/-- `Doxygen::load` (Doxygen.cpp, lines 41-116): read the index kinds, then
run the language-entity phase (`recurseMembers = false`), cleanup, the group
phase (`recurseMembers = true`), cleanup, the dir/file phase
(`recurseMembers = true`), cleanup, and finally rebuild the cache by a
depth-first traversal from the root.  A failure of `getIndexKinds` is fatal;
per-entry failures were already absorbed inside `loadEntry`. -/
def load (docs : String → Option Doc) (xml : IndexXml) (fuel : Nat) :
    Except String Store :=
  match getIndexKinds xml with
  | Except.error e => Except.error e
  | Except.ok kindRefidMap =>
    let st1 := phasePass docs fuel isKindAllowedLanguage false 0 kindRefidMap initialStore
    let st2 := cleanup st1 0
    let st3 := phasePass docs fuel isKindAllowedGroup true 0 kindRefidMap st2
    let st4 := cleanup st3 0
    let st5 := phasePass docs fuel isKindAllowedDirs true 0 kindRefidMap st4
    let st6 := cleanup st5 0
    Except.ok (rebuildCache fuel st6 (childrenOf st6 0))

/-- Modelled from the spec: `Node::finalize` (in `Node.cpp`, not part of the
available sources) fills the deferred detail payload; the embedding tracks
only the `finalized` flag it sets. -/
def finalizeNode (st : Store) (i : Nat) : Store :=
  updateN st i (fun nd => { nd with finalized := true })

/-- `Doxygen::finalizeRecursively` (Doxygen.cpp, lines 122-127): finalize
each child, then recurse into it; driven from the root by
`Doxygen::finalize` (lines 118-120). -/
def finalizeRecursively : Nat → Store → List Nat → Store
  | 0, st, _ => st
  | _ + 1, st, [] => st
  | fuel + 1, st, c :: cs =>
    let st1 := finalizeNode st c
    let st2 := finalizeRecursively fuel st1 (childrenOf st1 c)
    finalizeRecursively fuel st2 cs

/-- `Doxygen::find` (Doxygen.cpp, lines 163-170): cache lookup, failing when
the refid is absent. -/
def find (st : Store) (refid : String) : Except String Nat :=
  match cacheFind st refid with
  | some i => Except.ok i
  | none => Except.error "Failed to find node from cache by refid"

/-! ## Derived notions used by the statements -/

def kindOf (st : Store) (i : Nat) : String :=
  match lookupN st i with
  | some nd => nd.kind
  | none => ""

/-- The ids of all allocated nodes. -/
def nodeIds (st : Store) : List Nat := st.nodes.map Prod.fst

/-- A node id is live and is not the root sentinel. -/
def ValidId (st : Store) (i : Nat) : Prop :=
  (lookupN st i).isSome ∧ i ≠ 0

/-- Necessary conditions for a refid-preserving isomorphism between two final
stores: a map on node ids sending the root to the root and every allocated
node of `s1` to an allocated node of `s2` with the same refid and kind, with
corresponding parent back-references, and with corresponding children
sequences up to permutation.  A full isomorphism is additionally bijective;
omitting bijectivity only weakens the relation, so refuting `TreeIso`
refutes the existence of an isomorphism. -/
def TreeIso (s1 s2 : Store) : Prop :=
  ∃ φ : Nat → Nat, φ 0 = 0 ∧
    ∀ i ∈ nodeIds s1, φ i ∈ nodeIds s2 ∧
      refidOf s2 (φ i) = refidOf s1 i ∧
      kindOf s2 (φ i) = kindOf s1 i ∧
      parentOf s2 (φ i) = (parentOf s1 i).map φ ∧
      (childrenOf s2 (φ i)).Perm ((childrenOf s1 i).map φ)

/-- Monotone effect of a store operation: the allocation counter does not
decrease, no cache key disappears, and no allocated node disappears. -/
def Post (st st' : Store) : Prop :=
  st.next ≤ st'.next ∧
  (∀ r, (cacheFind st r).isSome → (cacheFind st' r).isSome) ∧
  (∀ j, (lookupN st j).isSome → (lookupN st' j).isSome)

/-- The store invariant maintained throughout `Doxygen::load`. -/
structure Inv (st : Store) : Prop where
  next_pos : 0 < st.next
  bound : ∀ p ∈ st.nodes, p.1 < st.next
  cache_sound : ∀ p ∈ st.cache,
    ∃ nd, lookupN st p.2 = some nd ∧ nd.refid = p.1 ∧ p.2 ≠ 0
  node_cached : ∀ p ∈ st.nodes, p.1 ≠ 0 → (cacheFind st p.2.refid).isSome
  refid_uniq : ∀ p ∈ st.nodes, ∀ q ∈ st.nodes,
    p.1 ≠ 0 → q.1 ≠ 0 → p.2.refid = q.2.refid → p.1 = q.1
  children_ok : ∀ p ∈ st.nodes, ∀ c ∈ p.2.children, ValidId st c
  unfinalized : ∀ p ∈ st.nodes, p.2.finalized = false

/-! ## Concrete inputs used by the closed statements

`exStore` extracts the store from a successful load (falling back to the
initial store, which none of the examples hits). -/

def exStore (docs : String → Option Doc) (xml : IndexXml) (fuel : Nat) : Store :=
  match load docs xml fuel with
  | Except.ok st => st
  | Except.error _ => initialStore

/-- Scenario of the spec (section 8): a class, a group listing the class as a
member, and a file listing nothing. -/
def docsABC : String → Option Doc := fun r =>
  if r = "C1" then some ⟨"class", [], []⟩
  else if r = "G1" then some ⟨"group", [], ["C1"]⟩
  else if r = "F1" then some ⟨"file", [], []⟩
  else none

def xmlABC : IndexXml :=
  ⟨true, [⟨some "class", some "C1"⟩, ⟨some "group", some "G1"⟩,
          ⟨some "file", some "F1"⟩]⟩

def stABC : Store := exStore docsABC xmlABC 20

/-- Two groups both listing the same class as a member. -/
def docsTwoGroups : String → Option Doc := fun r =>
  if r = "C" then some ⟨"class", [], []⟩
  else if r = "G1" then some ⟨"group", [], ["C"]⟩
  else if r = "G2" then some ⟨"group", [], ["C"]⟩
  else none

def xmlTwoGroups : IndexXml :=
  ⟨true, [⟨some "class", some "C"⟩, ⟨some "group", some "G1"⟩,
          ⟨some "group", some "G2"⟩]⟩

def stTwoGroups : Store := exStore docsTwoGroups xmlTwoGroups 20

/-- Two groups both listing the same class, in the two phase-preserving
orders obtained by swapping the two group compounds. -/
def docsPerm : String → Option Doc := fun r =>
  if r = "D" then some ⟨"class", [], []⟩
  else if r = "H1" then some ⟨"group", [], ["D"]⟩
  else if r = "H2" then some ⟨"group", [], ["D"]⟩
  else none

def xmlPermA : IndexXml :=
  ⟨true, [⟨some "class", some "D"⟩, ⟨some "group", some "H1"⟩,
          ⟨some "group", some "H2"⟩]⟩

def xmlPermB : IndexXml :=
  ⟨true, [⟨some "class", some "D"⟩, ⟨some "group", some "H2"⟩,
          ⟨some "group", some "H1"⟩]⟩

def stPermA : Store := exStore docsPerm xmlPermA 20

def stPermB : Store := exStore docsPerm xmlPermB 20

/-- Ten compounds: nine valid classes and one whose per-entity document is
missing. -/
def docsTen : String → Option Doc := fun r =>
  if r = "BAD" then none
  else if r = "A1" ∨ r = "A2" ∨ r = "A3" ∨ r = "A4" ∨ r = "A5" ∨ r = "A6" ∨
          r = "A7" ∨ r = "A8" ∨ r = "A9" then some ⟨"class", [], []⟩
  else none

def xmlTen : IndexXml :=
  ⟨true, [⟨some "class", some "A1"⟩, ⟨some "class", some "A2"⟩,
          ⟨some "class", some "A3"⟩, ⟨some "class", some "A4"⟩,
          ⟨some "class", some "BAD"⟩, ⟨some "class", some "A5"⟩,
          ⟨some "class", some "A6"⟩, ⟨some "class", some "A7"⟩,
          ⟨some "class", some "A8"⟩, ⟨some "class", some "A9"⟩]⟩

def stTen : Store := exStore docsTen xmlTen 50

/-- A refid referenced by two index compounds and by a group's member list. -/
def docsDup : String → Option Doc := fun r =>
  if r = "A" then some ⟨"class", [], []⟩
  else if r = "G" then some ⟨"group", [], ["A"]⟩
  else none

def xmlDup : IndexXml :=
  ⟨true, [⟨some "class", some "A"⟩, ⟨some "class", some "A"⟩,
          ⟨some "group", some "G"⟩]⟩

def stDup : Store := exStore docsDup xmlDup 20

/-- An index whose second compound lacks its `kind` attribute. -/
def xmlNoKind : IndexXml :=
  ⟨true, [⟨some "class", some "OK"⟩, ⟨none, some "R2"⟩]⟩

def docsOK : String → Option Doc := fun r =>
  if r = "OK" then some ⟨"class", [], []⟩ else none

/-! ## Association-list lemmas -/

theorem lookupA_mem {K V : Type} [DecidableEq K] {l : List (K × V)} {k : K}
    {v : V} (h : lookupA l k = some v) : (k, v) ∈ l := by
  induction l with
  | nil => simp [lookupA] at h
  | cons p l ih =>
    obtain ⟨a, b⟩ := p
    rw [lookupA] at h
    split at h
    · next heq =>
      injection h with h
      subst heq; subst h
      exact List.mem_cons_self _ _
    · exact List.mem_cons_of_mem _ (ih h)

theorem lookupA_isSome_of_mem {K V : Type} [DecidableEq K] {l : List (K × V)}
    {k : K} {v : V} (h : (k, v) ∈ l) : (lookupA l k).isSome := by
  induction l with
  | nil => simp at h
  | cons p l ih =>
    obtain ⟨a, b⟩ := p
    rw [lookupA]
    split
    · simp
    · next hne =>
      rcases List.mem_cons.mp h with h1 | h1
      · injection h1 with h1 h2; exact absurd h1.symm hne
      · exact ih h1

theorem lookupA_cons_isSome {K V : Type} [DecidableEq K] {l : List (K × V)}
    {e : K × V} {k : K} (h : (lookupA l k).isSome) :
    (lookupA (e :: l) k).isSome := by
  obtain ⟨a, b⟩ := e
  rw [lookupA]
  split <;> simp [h]

theorem lookupA_map_update_self {K V : Type} [DecidableEq K]
    (l : List (K × V)) (i : K) (f : V → V) :
    lookupA (l.map (fun p => if p.1 = i then (p.1, f p.2) else p)) i
      = (lookupA l i).map f := by
  induction l with
  | nil => simp [lookupA]
  | cons p l ih =>
    obtain ⟨a, b⟩ := p
    simp only [List.map_cons]
    by_cases hai : a = i
    · rw [if_pos hai, lookupA, lookupA, if_pos hai, if_pos hai]
      rfl
    · rw [if_neg hai, lookupA, lookupA, if_neg hai, if_neg hai]
      exact ih

theorem lookupA_map_update_ne {K V : Type} [DecidableEq K]
    (l : List (K × V)) (i : K) (f : V → V) {j : K} (h : j ≠ i) :
    lookupA (l.map (fun p => if p.1 = i then (p.1, f p.2) else p)) j
      = lookupA l j := by
  induction l with
  | nil => simp [lookupA]
  | cons p l ih =>
    obtain ⟨a, b⟩ := p
    simp only [List.map_cons]
    by_cases hai : a = i
    · have haj : a ≠ j := fun hh => h (hh ▸ hai)
      rw [if_pos hai, lookupA, lookupA, if_neg haj, if_neg haj]
      exact ih
    · by_cases haj : a = j
      · rw [if_neg hai, lookupA, lookupA, if_pos haj, if_pos haj]
      · rw [if_neg hai, lookupA, lookupA, if_neg haj, if_neg haj]
        exact ih

theorem lookupA_map_update {K V : Type} [DecidableEq K] (l : List (K × V))
    (i j : K) (f : V → V) :
    lookupA (l.map (fun p => if p.1 = i then (p.1, f p.2) else p)) j
      = if j = i then (lookupA l j).map f else lookupA l j := by
  by_cases hji : j = i
  · subst hji
    rw [if_pos rfl]
    exact lookupA_map_update_self l j f
  · rw [if_neg hji]
    exact lookupA_map_update_ne l i f hji

/-! ## Store-primitive lemmas -/

theorem lookupN_updateN (st : Store) (i : Nat) (f : NodeData → NodeData)
    (j : Nat) :
    lookupN (updateN st i f) j
      = if j = i then (lookupN st j).map f else lookupN st j :=
  lookupA_map_update st.nodes i j f

theorem lookupN_updateN_ne (st : Store) (i : Nat) (f : NodeData → NodeData)
    {j : Nat} (h : j ≠ i) : lookupN (updateN st i f) j = lookupN st j := by
  rw [lookupN_updateN]; simp [h]

theorem isSome_lookupN_updateN (st : Store) (i : Nat) (f : NodeData → NodeData)
    (j : Nat) :
    (lookupN (updateN st i f) j).isSome = (lookupN st j).isSome := by
  rw [lookupN_updateN]; split <;> simp

theorem validId_updateN (st : Store) (i : Nat) (f : NodeData → NodeData)
    (c : Nat) : ValidId (updateN st i f) c ↔ ValidId st c := by
  unfold ValidId
  rw [isSome_lookupN_updateN]

theorem mem_nodes_of_lookupN {st : Store} {j : Nat} {nd : NodeData}
    (h : lookupN st j = some nd) : (j, nd) ∈ st.nodes :=
  lookupA_mem h

theorem lookupN_lt_next {st : Store} (inv : Inv st) {j : Nat} {nd : NodeData}
    (h : lookupN st j = some nd) : j < st.next :=
  inv.bound _ (mem_nodes_of_lookupN h)

/-! ## `Post` lemmas -/

theorem Post.refl (st : Store) : Post st st :=
  ⟨le_refl _, fun _ h => h, fun _ h => h⟩

theorem Post.trans {s1 s2 s3 : Store} (h1 : Post s1 s2) (h2 : Post s2 s3) :
    Post s1 s3 :=
  ⟨le_trans h1.1 h2.1, fun r h => h2.2.1 r (h1.2.1 r h),
   fun j h => h2.2.2 j (h1.2.2 j h)⟩

theorem post_updateN (st : Store) (i : Nat) (f : NodeData → NodeData) :
    Post st (updateN st i f) :=
  ⟨le_refl _, fun _ h => h, fun j h => by rwa [isSome_lookupN_updateN]⟩

theorem post_cacheInsert (st : Store) (r : String) (i : Nat) :
    Post st (cacheInsert st r i) :=
  ⟨le_refl _, fun _ h => lookupA_cons_isSome h, fun _ h => h⟩

theorem post_alloc (st : Store) (r k : String) : Post st (alloc st r k).1 :=
  ⟨Nat.le_succ _, fun _ h => lookupA_cons_isSome h,
   fun _ h => lookupA_cons_isSome h⟩

theorem post_addChild (st : Store) (p c : Nat) : Post st (addChild st p c) :=
  Post.trans (post_updateN _ _ _) (post_updateN _ _ _)

theorem validId_of_post {st st' : Store} (h : Post st st') {c : Nat}
    (hc : ValidId st c) : ValidId st' c :=
  ⟨h.2.2 c hc.1, hc.2⟩

/-! ## Invariant preservation for the primitives -/

theorem Inv.updateN_of {st : Store} (inv : Inv st) (i : Nat)
    (f : NodeData → NodeData)
    (hrefid : ∀ nd, (f nd).refid = nd.refid)
    (hfin : ∀ nd, (f nd).finalized = nd.finalized)
    (hchild : ∀ nd, (∀ c ∈ nd.children, ValidId st c) →
      ∀ c ∈ (f nd).children, ValidId st c) :
    Inv (updateN st i f) := by
  have hmem : ∀ p ∈ (updateN st i f).nodes, ∃ q ∈ st.nodes,
      p.1 = q.1 ∧ (p.2 = q.2 ∨ (q.1 = i ∧ p.2 = f q.2)) := by
    intro p hp
    rcases List.mem_map.mp hp with ⟨q, hq, hpq⟩
    by_cases hqi : q.1 = i
    · exact ⟨q, hq, by rw [← hpq]; simp [hqi], Or.inr ⟨hqi, by rw [← hpq]; simp [hqi]⟩⟩
    · exact ⟨q, hq, by rw [← hpq]; simp [hqi], Or.inl (by rw [← hpq]; simp [hqi])⟩
  constructor
  · exact inv.next_pos
  · intro p hp
    rcases hmem p hp with ⟨q, hq, h1, _⟩
    rw [h1]; exact inv.bound q hq
  · intro p hp
    rcases inv.cache_sound p hp with ⟨nd, hnd, hr, hz⟩
    rw [lookupN_updateN]
    by_cases hpi : p.2 = i
    · refine ⟨f nd, ?_, ?_, hz⟩
      · rw [if_pos hpi, hnd]; rfl
      · rw [hrefid nd]; exact hr
    · rw [if_neg hpi]
      exact ⟨nd, hnd, hr, hz⟩
  · intro p hp hz
    rcases hmem p hp with ⟨q, hq, h1, h2⟩
    have : p.2.refid = q.2.refid := by
      rcases h2 with h2 | ⟨_, h2⟩ <;> rw [h2]; exact hrefid q.2
    rw [this]
    exact inv.node_cached q hq (h1 ▸ hz)
  · intro p hp q hq hpz hqz hr
    rcases hmem p hp with ⟨p0, hp0, hp1, hp2⟩
    rcases hmem q hq with ⟨q0, hq0, hq1, hq2⟩
    have hpr : p.2.refid = p0.2.refid := by
      rcases hp2 with h | ⟨_, h⟩ <;> rw [h]; exact hrefid p0.2
    have hqr : q.2.refid = q0.2.refid := by
      rcases hq2 with h | ⟨_, h⟩ <;> rw [h]; exact hrefid q0.2
    rw [hp1, hq1]
    exact inv.refid_uniq p0 hp0 q0 hq0 (hp1 ▸ hpz) (hq1 ▸ hqz)
      (by rw [← hpr, ← hqr]; exact hr)
  · intro p hp c hc
    rcases hmem p hp with ⟨q, hq, _, h2⟩
    have : ValidId st c := by
      rcases h2 with h2 | ⟨_, h2⟩
      · exact inv.children_ok q hq c (h2 ▸ hc)
      · exact hchild q.2 (inv.children_ok q hq) c (h2 ▸ hc)
    exact (validId_updateN st i f c).mpr this
  · intro p hp
    rcases hmem p hp with ⟨q, hq, _, h2⟩
    have : p.2.finalized = q.2.finalized := by
      rcases h2 with h2 | ⟨_, h2⟩ <;> rw [h2]; exact hfin q.2
    rw [this]; exact inv.unfinalized q hq

theorem Inv.setParent {st : Store} (inv : Inv st) (i : Nat) (p : Option Nat) :
    Inv (updateN st i (fun nd => { nd with parent := p })) :=
  inv.updateN_of i _ (fun _ => rfl) (fun _ => rfl) (fun _ h => h)

theorem Inv.pushChild {st : Store} (inv : Inv st) (i c : Nat)
    (hc : ValidId st c) :
    Inv (updateN st i (fun nd => { nd with children := nd.children ++ [c] })) :=
  inv.updateN_of i _ (fun _ => rfl) (fun _ => rfl)
    (fun _ h d hd => by
      rcases List.mem_append.mp hd with hd | hd
      · exact h d hd
      · rw [List.mem_singleton.mp hd]; exact hc)

theorem Inv.filterChildren {st : Store} (inv : Inv st) (i : Nat)
    (pred : Nat → Bool) :
    Inv (updateN st i
      (fun nd => { nd with children := nd.children.filter pred })) :=
  inv.updateN_of i _ (fun _ => rfl) (fun _ => rfl)
    (fun _ h d hd => h d (List.mem_of_mem_filter hd))

theorem Inv.addChild {st : Store} (inv : Inv st) (p c : Nat)
    (hc : ValidId st c) : Inv (addChild st p c) := by
  have h1 := inv.setParent c (some p)
  exact h1.pushChild p c ((validId_updateN _ _ _ _).mpr hc)

theorem alloc_inv {st : Store} (inv : Inv st) (r k : String)
    (hmiss : cacheFind st r = none) :
    Inv (alloc st r k).1 ∧
      lookupN (alloc st r k).1 (alloc st r k).2
        = some ⟨r, k, none, [], false⟩ ∧
      ValidId (alloc st r k).1 (alloc st r k).2 := by
  have hn0 : st.next ≠ 0 := Nat.pos_iff_ne_zero.mp inv.next_pos
  have hpres : ∀ j (nd : NodeData), lookupN st j = some nd →
      lookupN (alloc st r k).1 j = some nd := by
    intro j nd h
    have hj : j < st.next := inv.bound _ (mem_nodes_of_lookupN h)
    show lookupA ((st.next, (⟨r, k, none, [], false⟩ : NodeData)) :: st.nodes) j
      = some nd
    rw [lookupA, if_neg (ne_of_gt hj)]
    exact h
  have hself : lookupN (alloc st r k).1 (alloc st r k).2
      = some ⟨r, k, none, [], false⟩ := by
    show lookupA ((st.next, (⟨r, k, none, [], false⟩ : NodeData)) :: st.nodes)
      st.next = _
    rw [lookupA, if_pos rfl]
  refine ⟨?_, hself, by rw [hself]; simp, hn0⟩
  constructor
  · exact Nat.succ_pos _
  · intro p hp
    rcases List.mem_cons.mp hp with hp | hp
    · rw [hp]; exact Nat.lt_succ_self _
    · exact Nat.lt_succ_of_lt (inv.bound p hp)
  · intro p hp
    rcases List.mem_cons.mp hp with hp | hp
    · rw [hp]
      exact ⟨⟨r, k, none, [], false⟩, hself, rfl, hn0⟩
    · rcases inv.cache_sound p hp with ⟨nd, hnd, hr, hz⟩
      exact ⟨nd, hpres _ _ hnd, hr, hz⟩
  · intro p hp hz
    rcases List.mem_cons.mp hp with hp | hp
    · rw [hp]
      show (lookupA ((r, st.next) :: st.cache) r).isSome
      rw [lookupA, if_pos rfl]
      rfl
    · exact lookupA_cons_isSome (inv.node_cached p hp hz)
  · intro p hp q hq hpz hqz hr
    rcases List.mem_cons.mp hp with hp | hp <;>
      rcases List.mem_cons.mp hq with hq | hq
    · rw [hp, hq]
    · exfalso
      have hq2 : q.2.refid = r := by rw [← hr, hp]
      have hcq := inv.node_cached q hq hqz
      rw [hq2, hmiss] at hcq
      simp at hcq
    · exfalso
      have hp2 : p.2.refid = r := by rw [hr, hq]
      have hcp := inv.node_cached p hp hpz
      rw [hp2, hmiss] at hcp
      simp at hcp
    · exact inv.refid_uniq p hp q hq hpz hqz hr
  · intro p hp c hc
    rcases List.mem_cons.mp hp with hp | hp
    · rw [hp] at hc
      simp at hc
    · rcases inv.children_ok p hp c hc with ⟨hs, hz⟩
      rcases Option.isSome_iff_exists.mp hs with ⟨nd, hnd⟩
      exact ⟨by rw [hpres c nd hnd]; rfl, hz⟩
  · intro p hp
    rcases List.mem_cons.mp hp with hp | hp
    · rw [hp]
    · exact inv.unfinalized p hp

/-! ## The parse invariant -/

theorem parse_parseChildren_inv (docs : String → Option Doc) :
    ∀ fuel : Nat,
    (∀ st r rec st' n, Inv st → cacheFind st r = none →
       parse docs fuel st r rec = some (st', n) →
       Inv st' ∧ Post st st' ∧ ValidId st' n) ∧
    (∀ st parent cs rec st', Inv st →
       parseChildren docs fuel st parent cs rec = some st' →
       Inv st' ∧ Post st st') := by
  intro fuel
  induction fuel with
  | zero =>
    constructor
    · intro st r rec st' n _ _ h
      rw [parse] at h; cases h
    · intro st parent cs rec st' _ h
      rw [parseChildren] at h; cases h
  | succ fuel ih =>
    obtain ⟨ihP, ihC⟩ := ih
    constructor
    · intro st r rec st' n inv hmiss h
      rw [parse] at h
      cases hd : docs r with
      | none =>
        simp only [hd] at h
        cases h
      | some doc =>
        simp only [hd] at h
        obtain ⟨invA, hselfA, validA⟩ := alloc_inv inv r doc.kind hmiss
        cases hpc : parseChildren docs fuel (alloc st r doc.kind).1
            (alloc st r doc.kind).2
            (doc.compounds ++ (if rec then doc.members else [])) rec with
        | none =>
          simp only [hpc] at h
          cases h
        | some st2 =>
          simp only [hpc, Option.some.injEq, Prod.mk.injEq] at h
          obtain ⟨h1, h2⟩ := h
          subst h1; subst h2
          obtain ⟨i2, p2⟩ := ihC _ _ _ _ _ invA hpc
          exact ⟨i2, Post.trans (post_alloc st r doc.kind) p2,
            validId_of_post p2 validA⟩
    · intro st parent cs rec st' inv h
      cases cs with
      | nil =>
        rw [parseChildren] at h
        injection h with h
        subst h
        exact ⟨inv, Post.refl st⟩
      | cons c cs =>
        rw [parseChildren] at h
        cases hcf : cacheFind st c with
        | some cid =>
          simp only [hcf] at h
          have hv : ValidId st cid := by
            rcases inv.cache_sound _ (lookupA_mem hcf) with ⟨nd, hnd, _, hz⟩
            exact ⟨by rw [hnd]; rfl, hz⟩
          obtain ⟨i2, p2⟩ := ihC _ _ _ _ _ (inv.addChild parent cid hv) h
          exact ⟨i2, Post.trans (post_addChild st parent cid) p2⟩
        | none =>
          simp only [hcf] at h
          cases hp : parse docs fuel st c rec with
          | none =>
            simp only [hp] at h
            cases h
          | some q =>
            simp only [hp] at h
            obtain ⟨st1, nid⟩ := q
            obtain ⟨iq, pq, vq⟩ := ihP st c rec st1 nid inv hcf hp
            obtain ⟨i2, p2⟩ := ihC _ _ _ _ _ (iq.addChild parent nid vq) h
            exact ⟨i2, Post.trans pq
              (Post.trans (post_addChild st1 parent nid) p2)⟩

/-! ## Congruence helpers (operations that do not touch the heap) -/

theorem lookupN_congr {st st' : Store} (h : st.nodes = st'.nodes) (j : Nat) :
    lookupN st j = lookupN st' j := by
  unfold lookupN
  rw [h]

theorem childrenOf_congr {st st' : Store} (h : st.nodes = st'.nodes)
    (j : Nat) : childrenOf st j = childrenOf st' j := by
  unfold childrenOf
  rw [lookupN_congr h]

theorem refidOf_congr {st st' : Store} (h : st.nodes = st'.nodes) (j : Nat) :
    refidOf st j = refidOf st' j := by
  unfold refidOf
  rw [lookupN_congr h]

theorem validId_congr {st st' : Store} (h : st.nodes = st'.nodes) (c : Nat) :
    ValidId st c ↔ ValidId st' c := by
  unfold ValidId
  rw [lookupN_congr h]

theorem treeIds_congr : ∀ fuel {st st' : Store}, st.nodes = st'.nodes →
    ∀ l, treeIds fuel st l = treeIds fuel st' l := by
  intro fuel
  induction fuel with
  | zero => intro st st' h l; rw [treeIds, treeIds]
  | succ fuel ih =>
    intro st st' h l
    cases l with
    | nil => rw [treeIds, treeIds]
    | cons c cs =>
      rw [treeIds, treeIds, childrenOf_congr h, ih h, ih h]

theorem nodes_cacheInsert (st : Store) (r : String) (i : Nat) :
    (cacheInsert st r i).nodes = st.nodes := rfl

theorem childrenOf_valid {st : Store} (inv : Inv st) (i : Nat) :
    ∀ c ∈ childrenOf st i, ValidId st c := by
  unfold childrenOf
  cases h : lookupN st i with
  | none => simp
  | some nd => exact fun c hc => inv.children_ok _ (mem_nodes_of_lookupN h) c hc

/-! ## Invariants through the load pipeline -/

theorem cacheInsert_inv {st : Store} (inv : Inv st) {c : Nat}
    (hc : ValidId st c) : Inv (cacheInsert st (refidOf st c) c) := by
  obtain ⟨hs, hz⟩ := hc
  rcases Option.isSome_iff_exists.mp hs with ⟨nd, hnd⟩
  constructor
  · exact inv.next_pos
  · exact inv.bound
  · intro p hp
    rcases List.mem_cons.mp hp with hp | hp
    · rw [hp]
      exact ⟨nd, hnd, by simp [refidOf, hnd], hz⟩
    · exact inv.cache_sound p hp
  · intro p hp hpz
    exact lookupA_cons_isSome (inv.node_cached p hp hpz)
  · exact inv.refid_uniq
  · exact inv.children_ok
  · exact inv.unfinalized

theorem cleanup_inv {st : Store} (inv : Inv st) (n : Nat) :
    Inv (cleanup st n) ∧ Post st (cleanup st n) :=
  ⟨inv.filterChildren n _, post_updateN _ _ _⟩

theorem loadEntry_inv (docs : String → Option Doc) (fuel : Nat) (rec : Bool)
    (rootId : Nat) {st : Store} (inv : Inv st) (r : String) :
    Inv (loadEntry docs fuel rec rootId st r) ∧
      Post st (loadEntry docs fuel rec rootId st r) := by
  unfold loadEntry
  cases hcf : cacheFind st r with
  | some cid => exact ⟨inv, Post.refl st⟩
  | none =>
    cases hp : parse docs fuel st r rec with
    | none => exact ⟨inv, Post.refl st⟩
    | some q =>
      obtain ⟨st1, nid⟩ := q
      obtain ⟨iq, pq, vq⟩ :=
        (parse_parseChildren_inv docs fuel).1 st r rec st1 nid inv hcf hp
      simp only
      have i2 := iq.pushChild rootId nid vq
      have p2 : Post st (updateN st1 rootId
          (fun nd => { nd with children := nd.children ++ [nid] })) :=
        Post.trans pq (post_updateN _ _ _)
      split
      · exact ⟨i2.setParent nid (some rootId),
          Post.trans p2 (post_updateN _ _ _)⟩
      · exact ⟨i2, p2⟩

theorem phasePass_inv (docs : String → Option Doc) (fuel : Nat)
    (pred : String → Bool) (rec : Bool) (rootId : Nat)
    (entries : List (String × String)) :
    ∀ {st : Store}, Inv st →
    Inv (phasePass docs fuel pred rec rootId entries st) ∧
      Post st (phasePass docs fuel pred rec rootId entries st) := by
  induction entries with
  | nil => exact fun inv => ⟨inv, Post.refl _⟩
  | cons e es ih =>
    intro st inv
    show Inv (phasePass docs fuel pred rec rootId (e :: es) st) ∧ _
    unfold phasePass
    rw [List.foldl_cons]
    by_cases hpred : pred e.1
    · rw [if_pos hpred]
      obtain ⟨i1, p1⟩ := loadEntry_inv docs fuel rec rootId inv e.2
      obtain ⟨i2, p2⟩ := ih i1
      exact ⟨i2, Post.trans p1 p2⟩
    · rw [if_neg hpred]
      obtain ⟨i2, p2⟩ := ih inv
      exact ⟨i2, p2⟩

theorem rebuildCache_nodes : ∀ fuel (st : Store) l,
    (rebuildCache fuel st l).nodes = st.nodes ∧
      (rebuildCache fuel st l).next = st.next := by
  intro fuel
  induction fuel with
  | zero => intro st l; rw [rebuildCache]; exact ⟨rfl, rfl⟩
  | succ fuel ih =>
    intro st l
    cases l with
    | nil => rw [rebuildCache]; exact ⟨rfl, rfl⟩
    | cons c cs =>
      simp only [rebuildCache]
      obtain ⟨h1, h1'⟩ := ih (cacheInsert st (refidOf st c) c)
        (childrenOf (cacheInsert st (refidOf st c) c) c)
      obtain ⟨h2, h2'⟩ := ih (rebuildCache fuel (cacheInsert st (refidOf st c) c)
        (childrenOf (cacheInsert st (refidOf st c) c) c)) cs
      rw [h2, h2', h1, h1']
      exact ⟨rfl, rfl⟩

theorem rebuildCache_inv : ∀ fuel {st : Store} l, Inv st →
    (∀ c ∈ l, ValidId st c) → Inv (rebuildCache fuel st l) := by
  intro fuel
  induction fuel with
  | zero => intro st l inv _; rw [rebuildCache]; exact inv
  | succ fuel ih =>
    intro st l inv hl
    cases l with
    | nil => rw [rebuildCache]; exact inv
    | cons c cs =>
      simp only [rebuildCache]
      have hc := hl c (List.mem_cons_self c cs)
      have inv1 : Inv (cacheInsert st (refidOf st c) c) := cacheInsert_inv inv hc
      have hl1 : ∀ d ∈ childrenOf (cacheInsert st (refidOf st c) c) c,
          ValidId (cacheInsert st (refidOf st c) c) d := by
        intro d hd
        exact childrenOf_valid inv1 c d hd
      have inv2 := ih _ inv1 hl1
      refine ih cs inv2 ?_
      intro d hd
      have hnodes : (rebuildCache fuel (cacheInsert st (refidOf st c) c)
          (childrenOf (cacheInsert st (refidOf st c) c) c)).nodes = st.nodes :=
        (rebuildCache_nodes _ _ _).1
      exact (validId_congr hnodes.symm d).mp (hl d (List.mem_cons_of_mem c hd))

theorem rebuildCache_cache_mono : ∀ fuel (st : Store) l e, e ∈ st.cache →
    e ∈ (rebuildCache fuel st l).cache := by
  intro fuel
  induction fuel with
  | zero => intro st l e he; rw [rebuildCache]; exact he
  | succ fuel ih =>
    intro st l e he
    cases l with
    | nil => rw [rebuildCache]; exact he
    | cons c cs =>
      simp only [rebuildCache]
      exact ih _ _ _ (ih _ _ _ (List.mem_cons_of_mem _ he))

theorem rebuildCache_mem : ∀ fuel (st : Store) l c, c ∈ treeIds fuel st l →
    (refidOf st c, c) ∈ (rebuildCache fuel st l).cache := by
  intro fuel
  induction fuel with
  | zero => intro st l c hc; rw [treeIds] at hc; cases hc
  | succ fuel ih =>
    intro st l c hc
    cases l with
    | nil => rw [treeIds] at hc; cases hc
    | cons c0 cs =>
      rw [treeIds] at hc
      simp only [rebuildCache]
      have hnodes1 : (cacheInsert st (refidOf st c0) c0).nodes = st.nodes := rfl
      rcases List.mem_cons.mp hc with hc | hc
      · subst hc
        refine rebuildCache_cache_mono _ _ _ _
          (rebuildCache_cache_mono _ _ _ _ (List.mem_cons_self _ _))
      · rcases List.mem_append.mp hc with hc | hc
        · have hc1 : c ∈ treeIds fuel (cacheInsert st (refidOf st c0) c0)
              (childrenOf (cacheInsert st (refidOf st c0) c0) c0) := by
            rw [treeIds_congr fuel hnodes1]
            exact hc
          have := ih _ _ _ hc1
          rw [refidOf_congr hnodes1] at this
          exact rebuildCache_cache_mono _ _ _ _ this
        · have hnodes2 : (rebuildCache fuel (cacheInsert st (refidOf st c0) c0)
              (childrenOf (cacheInsert st (refidOf st c0) c0) c0)).nodes
                = st.nodes := (rebuildCache_nodes _ _ _).1
          have hc2 : c ∈ treeIds fuel (rebuildCache fuel
              (cacheInsert st (refidOf st c0) c0)
              (childrenOf (cacheInsert st (refidOf st c0) c0) c0)) cs := by
            rw [treeIds_congr fuel hnodes2]
            exact hc
          have := ih _ _ _ hc2
          rw [refidOf_congr hnodes2] at this
          exact this

theorem treeIds_valid : ∀ fuel {st : Store} l, Inv st →
    (∀ c ∈ l, ValidId st c) → ∀ c ∈ treeIds fuel st l, ValidId st c := by
  intro fuel
  induction fuel with
  | zero => intro st l _ _ c hc; rw [treeIds] at hc; cases hc
  | succ fuel ih =>
    intro st l inv hl c hc
    cases l with
    | nil => rw [treeIds] at hc; cases hc
    | cons c0 cs =>
      rw [treeIds] at hc
      rcases List.mem_cons.mp hc with hc | hc
      · subst hc; exact hl c (List.mem_cons_self _ _)
      · rcases List.mem_append.mp hc with hc | hc
        · exact ih _ inv (childrenOf_valid inv c0) c hc
        · exact ih _ inv (fun d hd => hl d (List.mem_cons_of_mem _ hd)) c hc

/-- The heart of the cache-rebuild correctness: after `rebuildCache`, looking
up the refid of any visited node returns exactly that node. -/
theorem rebuild_lookup {fuel : Nat} {st : Store} {l : List Nat} (inv : Inv st)
    (hl : ∀ c ∈ l, ValidId st c) {c : Nat} (hc : c ∈ treeIds fuel st l) :
    cacheFind (rebuildCache fuel st l) (refidOf st c) = some c := by
  have hmem : (refidOf st c, c) ∈ (rebuildCache fuel st l).cache :=
    rebuildCache_mem fuel st l c hc
  have hsome := lookupA_isSome_of_mem hmem
  rcases Option.isSome_iff_exists.mp hsome with ⟨j, hj⟩
  have hjmem : (refidOf st c, j) ∈ (rebuildCache fuel st l).cache :=
    lookupA_mem hj
  have inv' : Inv (rebuildCache fuel st l) := rebuildCache_inv fuel l inv hl
  rcases inv'.cache_sound _ hjmem with ⟨ndj, hndj, hrj, hjz⟩
  have hcv : ValidId st c := treeIds_valid fuel l inv hl c hc
  rcases Option.isSome_iff_exists.mp hcv.1 with ⟨ndc, hndc⟩
  have hnodes : (rebuildCache fuel st l).nodes = st.nodes :=
    (rebuildCache_nodes fuel st l).1
  have hndc' : lookupN (rebuildCache fuel st l) c = some ndc := by
    rw [lookupN_congr hnodes]; exact hndc
  have hrc : ndc.refid = refidOf st c := by simp [refidOf, hndc]
  have hjc : j = c := inv'.refid_uniq (j, ndj) (mem_nodes_of_lookupN hndj)
    (c, ndc) (mem_nodes_of_lookupN hndc') hjz hcv.2 (by rw [hrj, hrc])
  show lookupA (rebuildCache fuel st l).cache (refidOf st c) = some c
  rw [hj, hjc]

theorem initialStore_inv : Inv initialStore := by
  refine ⟨?_, ?_, ?_, ?_, ?_, ?_, ?_⟩
  · decide
  · decide
  · intro p hp; cases hp
  · intro p hp hz
    rcases List.mem_cons.mp hp with hp | hp
    · rw [hp] at hz; exact absurd rfl hz
    · cases hp
  · intro p hp q hq hpz hqz _
    rcases List.mem_cons.mp hp with hp | hp
    · rw [hp] at hpz; exact absurd rfl hpz
    · cases hp
  · intro p hp c hc
    rcases List.mem_cons.mp hp with hp | hp
    · rw [hp] at hc; cases hc
    · cases hp
  · intro p hp
    rcases List.mem_cons.mp hp with hp | hp
    · rw [hp]
    · cases hp

/-- Successful loads decompose into the three phases, the three cleanups and
the cache rebuild, in that order. -/
theorem load_ok_cases {docs : String → Option Doc} {xml : IndexXml}
    {fuel : Nat} {st : Store} (h : load docs xml fuel = Except.ok st) :
    ∃ ks st6, getIndexKinds xml = Except.ok ks ∧
      st6 = cleanup (phasePass docs fuel isKindAllowedDirs true 0 ks
        (cleanup (phasePass docs fuel isKindAllowedGroup true 0 ks
          (cleanup (phasePass docs fuel isKindAllowedLanguage false 0 ks
            initialStore) 0)) 0)) 0 ∧
      st = rebuildCache fuel st6 (childrenOf st6 0) ∧ Inv st6 := by
  unfold load at h
  cases hk : getIndexKinds xml with
  | error e => rw [hk] at h; cases h
  | ok ks =>
    rw [hk] at h
    injection h with h
    have i0 := initialStore_inv
    have i1 := (phasePass_inv docs fuel isKindAllowedLanguage false 0 ks i0).1
    have i2 := (cleanup_inv i1 0).1
    have i3 := (phasePass_inv docs fuel isKindAllowedGroup true 0 ks i2).1
    have i4 := (cleanup_inv i3 0).1
    have i5 := (phasePass_inv docs fuel isKindAllowedDirs true 0 ks i4).1
    have i6 := (cleanup_inv i5 0).1
    exact ⟨ks, _, rfl, rfl, h.symm, i6⟩

theorem load_ok_inv {docs : String → Option Doc} {xml : IndexXml}
    {fuel : Nat} {st : Store} (h : load docs xml fuel = Except.ok st) :
    Inv st := by
  obtain ⟨ks, st6, hk, h6, hst, i6⟩ := load_ok_cases h
  rw [hst]
  exact rebuildCache_inv fuel _ i6 (childrenOf_valid i6 0)

/-- After a successful load, every node in the depth-first tree traversal is
found in the cache under its refid. -/
theorem load_cache_correct {docs : String → Option Doc} {xml : IndexXml}
    {fuel : Nat} {st : Store} (h : load docs xml fuel = Except.ok st) :
    ∀ c ∈ treeIds fuel st (childrenOf st 0),
      cacheFind st (refidOf st c) = some c := by
  obtain ⟨ks, st6, hk, h6, hst, i6⟩ := load_ok_cases h
  subst hst
  have hnodes : (rebuildCache fuel st6 (childrenOf st6 0)).nodes = st6.nodes :=
    (rebuildCache_nodes _ _ _).1
  intro c hc
  rw [childrenOf_congr hnodes 0, treeIds_congr fuel hnodes] at hc
  rw [refidOf_congr hnodes c]
  exact rebuild_lookup i6 (childrenOf_valid i6 0) hc

theorem parentOf_cleanup (st : Store) (n c : Nat) :
    parentOf (cleanup st n) c = parentOf st c := by
  unfold parentOf cleanup
  rw [lookupN_updateN]
  by_cases hcn : c = n
  · rw [if_pos hcn]
    cases lookupN st c with
    | none => rfl
    | some nd => rfl
  · rw [if_neg hcn]

theorem cleanup_children_parent {st : Store} {n c : Nat}
    (hc : c ∈ childrenOf (cleanup st n) n) : parentOf st c = some n := by
  unfold childrenOf cleanup at hc
  rw [lookupN_updateN, if_pos rfl] at hc
  cases h : lookupN st n with
  | none =>
    rw [h] at hc
    simp at hc
  | some nd =>
    rw [h] at hc
    have hc2 : c ∈ List.filter (fun c => parentOf st c == some n)
        nd.children := hc
    exact beq_iff_eq.mp (List.mem_filter.mp hc2).2

theorem getIndexKinds_ok_eq {xml : IndexXml} {ks : List (String × String)}
    (h : getIndexKinds xml = Except.ok ks) :
    ks = xml.compounds.filterMap (fun c =>
      match c.kind, c.refid with
      | some k, some r => some (k, r)
      | _, _ => none) := by
  unfold getIndexKinds at h
  split at h
  · cases h
  · split at h
    · cases h
    · injection h with h; exact h.symm

theorem getIndexKinds_error_iff (xml : IndexXml) :
    (∃ e, getIndexKinds xml = Except.error e) ↔
      (xml.hasRoot = false ∨ xml.compounds = []) := by
  constructor
  · rintro ⟨e, he⟩
    unfold getIndexKinds at he
    split at he
    · next hc => exact Or.inl (by revert hc; cases xml.hasRoot <;> simp)
    · split at he
      · next hc => exact Or.inr (List.isEmpty_iff.mp hc)
      · cases he
  · intro h
    rcases h with h | h
    · exact ⟨"Unable to find root element", by unfold getIndexKinds; rw [h]; rfl⟩
    · cases hr : xml.hasRoot
      · exact ⟨"Unable to find root element",
          by unfold getIndexKinds; rw [hr]; rfl⟩
      · refine ⟨"No compound element", ?_⟩
        unfold getIndexKinds
        rw [hr, h]
        rfl

/-! ## The claims -/

/-- C1: `load` runs, in this order, the language-entity pass
(`recurseMembers = false`), a cleanup, the group pass
(`recurseMembers = true`), a cleanup, the dir/file pass
(`recurseMembers = true`), a cleanup, and the depth-first cache rebuild;
no node is finalized during load — finalization happens only afterwards. -/
theorem claim1_phase_order :
    ∀ (docs : String → Option Doc) (xml : IndexXml) (fuel : Nat) (st : Store),
      load docs xml fuel = Except.ok st →
      (∃ ks, getIndexKinds xml = Except.ok ks ∧
        st = rebuildCache fuel
          (cleanup (phasePass docs fuel isKindAllowedDirs true 0 ks
            (cleanup (phasePass docs fuel isKindAllowedGroup true 0 ks
              (cleanup (phasePass docs fuel isKindAllowedLanguage false 0 ks
                initialStore) 0)) 0)) 0)
          (childrenOf (cleanup (phasePass docs fuel isKindAllowedDirs true 0 ks
            (cleanup (phasePass docs fuel isKindAllowedGroup true 0 ks
              (cleanup (phasePass docs fuel isKindAllowedLanguage false 0 ks
                initialStore) 0)) 0)) 0) 0)) ∧
      (∀ i nd, lookupN st i = some nd → nd.finalized = false) := by
  intro docs xml fuel st h
  obtain ⟨ks, st6, hk, h6, hst, i6⟩ := load_ok_cases h
  constructor
  · exact ⟨ks, hk, by rw [hst, h6]⟩
  · intro i nd hnd
    exact (load_ok_inv h).unfinalized _ (mem_nodes_of_lookupN hnd)

theorem claim1_witness :
    (⟨"C1", "class", some 2, [], false⟩ : NodeData).finalized = false := by
  have h := claim1_phase_order docsABC xmlABC 20 stABC rfl
  exact h.2 1 _ (by decide)

/-- C2: in the concrete scenario — index `(class, C1)`, `(group, G1)`,
`(file, F1)`; `C1` declares no children; `G1` lists `C1` as a member; `F1`
lists no members — after load the root's children are exactly `G1` then
`F1`, `G1` has exactly the child `C1`, and `C1` (node 1) is not a direct
child of the root. -/
theorem claim2_concrete_scenario :
    load docsABC xmlABC 20 = Except.ok stABC ∧
    (childrenOf stABC 0).map (refidOf stABC) = ["G1", "F1"] ∧
    cacheFind stABC "C1" = some 1 ∧
    cacheFind stABC "G1" = some 2 ∧
    (childrenOf stABC 2).map (refidOf stABC) = ["C1"] ∧
    1 ∉ childrenOf stABC 0 :=
  ⟨rfl, by decide, by decide, by decide, by decide, by decide⟩

/-- C3 counterexample: with two groups both listing the same class as a
member, after load (so after the cleanup that follows each phase) node 1
(`C`) is simultaneously a member of the `children` sequences of the two
distinct tree nodes 2 (`G1`) and 3 (`G2`) — cleanup runs only on the root
and never detaches the stale entry inside `G1`. -/
theorem claim3_counterexample :
    load docsTwoGroups xmlTwoGroups 20 = Except.ok stTwoGroups ∧
    2 ∈ childrenOf stTwoGroups 0 ∧ 3 ∈ childrenOf stTwoGroups 0 ∧
    refidOf stTwoGroups 2 = "G1" ∧ refidOf stTwoGroups 3 = "G2" ∧
    1 ∈ childrenOf stTwoGroups 2 ∧ 1 ∈ childrenOf stTwoGroups 3 ∧
    refidOf stTwoGroups 1 = "C" :=
  ⟨rfl, by decide, by decide, by decide, by decide, by decide, by decide,
   by decide⟩

/-- C3 amended: after a cleanup pass on a node, every remaining child of
that node has its `parent` back-reference equal to that node; cleanup is
applied only to that node, so the claim's stronger statement — that no node
is in two `children` sequences anywhere in the tree — does not hold (see
the counterexample). -/
theorem claim3_amended_no_stale_root_children :
    ∀ (st : Store) (n c : Nat), c ∈ childrenOf (cleanup st n) n →
      parentOf (cleanup st n) c = some n := by
  intro st n c hc
  rw [parentOf_cleanup]
  exact cleanup_children_parent hc

theorem claim3_witness :
    2 ∈ childrenOf (cleanup stABC 0) 0 ∧
    parentOf (cleanup stABC 0) 2 = some 0 :=
  ⟨by decide, claim3_amended_no_stale_root_children stABC 0 2 (by decide)⟩

/-- C4: after any successful load, distinct non-root nodes never share a
refid (at most one node is constructed per refid), and the cache maps each
refid to at most one node. -/
theorem claim4_refid_unique :
    ∀ (docs : String → Option Doc) (xml : IndexXml) (fuel : Nat) (st : Store),
      load docs xml fuel = Except.ok st →
      (∀ p ∈ st.nodes, ∀ q ∈ st.nodes, p.1 ≠ 0 → q.1 ≠ 0 →
         p.2.refid = q.2.refid → p.1 = q.1) ∧
      (∀ r i j, (r, i) ∈ st.cache → (r, j) ∈ st.cache → i = j) := by
  intro docs xml fuel st h
  have inv := load_ok_inv h
  refine ⟨inv.refid_uniq, ?_⟩
  intro r i j hi hj
  rcases inv.cache_sound _ hi with ⟨ndi, hni, hri, hiz⟩
  rcases inv.cache_sound _ hj with ⟨ndj, hnj, hrj, hjz⟩
  exact inv.refid_uniq (i, ndi) (mem_nodes_of_lookupN hni) (j, ndj)
    (mem_nodes_of_lookupN hnj) hiz hjz (by rw [hri, hrj])

theorem claim4_witness :
    load docsDup xmlDup 20 = Except.ok stDup ∧ (1 : Nat) = 1 :=
  ⟨rfl, (claim4_refid_unique docsDup xmlDup 20 stDup rfl).2 "A" 1 1
    (by decide) (by decide)⟩

/-- C5: a failing per-entity parse is absorbed inside the phase loop (the
entry is skipped and the store is unchanged), a load whose index reading
succeeds always returns successfully, and in the concrete ten-compound
input with one malformed document the tree contains exactly the nine valid
entities. -/
theorem claim5_partial_failure :
    (∀ (docs : String → Option Doc) (fuel : Nat) (rec : Bool) (rootId : Nat)
       (st : Store) (r : String), cacheFind st r = none →
       parse docs fuel st r rec = none →
       loadEntry docs fuel rec rootId st r = st) ∧
    (∀ (docs : String → Option Doc) (xml : IndexXml) (fuel : Nat)
       (ks : List (String × String)), getIndexKinds xml = Except.ok ks →
       ∃ st, load docs xml fuel = Except.ok st) ∧
    (load docsTen xmlTen 50 = Except.ok stTen ∧
     (childrenOf stTen 0).map (refidOf stTen)
       = ["A1", "A2", "A3", "A4", "A5", "A6", "A7", "A8", "A9"] ∧
     parse docsTen 50 initialStore "BAD" false = none) := by
  refine ⟨?_, ?_, rfl, by decide, rfl⟩
  · intro docs fuel rec rootId st r hcf hp
    unfold loadEntry
    rw [hcf, hp]
  · intro docs xml fuel ks hk
    exact ⟨_, by unfold load; rw [hk]⟩

theorem claim5_witness :
    loadEntry docsTen 5 false 0 initialStore "BAD" = initialStore ∧
    ∃ st, load docsABC xmlABC 20 = Except.ok st :=
  ⟨claim5_partial_failure.1 docsTen 5 false 0 initialStore "BAD" rfl rfl,
   claim5_partial_failure.2.1 docsABC xmlABC 20
     [("class", "C1"), ("group", "G1"), ("file", "F1")] rfl⟩

/-- C6: after a successful load, the depth-first traversal of the tree has
inserted every tree node into the cache keyed by its refid, and looking up
that refid returns exactly that node. -/
theorem claim6_cache_rebuild :
    ∀ (docs : String → Option Doc) (xml : IndexXml) (fuel : Nat) (st : Store),
      load docs xml fuel = Except.ok st →
      ∀ c ∈ treeIds fuel st (childrenOf st 0),
        (refidOf st c, c) ∈ st.cache ∧
        cacheFind st (refidOf st c) = some c := by
  intro docs xml fuel st h c hc
  have h2 := load_cache_correct h c hc
  exact ⟨lookupA_mem h2, h2⟩

theorem claim6_witness :
    2 ∈ treeIds 20 stABC (childrenOf stABC 0) ∧
    cacheFind stABC (refidOf stABC 2) = some 2 :=
  ⟨by decide,
   (claim6_cache_rebuild docsABC xmlABC 20 stABC rfl 2 (by decide)).2⟩

/-- C7 counterexample: a `<compound>` element lacking its `kind` attribute
is not fatal — `getIndexKinds` skips it with a warning, returns the
remaining entries, and the load succeeds. -/
theorem claim7_counterexample :
    getIndexKinds xmlNoKind = Except.ok [("class", "OK")] ∧
    load docsOK xmlNoKind 10 = Except.ok (exStore docsOK xmlNoKind 10) :=
  ⟨rfl, rfl⟩

/-- C7 amended: a missing required element in the top-level index (no
`doxygenindex` root, or no `<compound>` element at all) is fatal, and these
are the only fatal index errors; a compound lacking its `kind` or `refid`
attribute is skipped (the successful result keeps exactly the compounds
with both attributes). -/
theorem claim7_amended_only_missing_elements_fatal :
    ∀ xml : IndexXml,
      ((∃ e, getIndexKinds xml = Except.error e) ↔
        (xml.hasRoot = false ∨ xml.compounds = [])) ∧
      (∀ ks, getIndexKinds xml = Except.ok ks →
        ks = xml.compounds.filterMap (fun c =>
          match c.kind, c.refid with
          | some k, some r => some (k, r)
          | _, _ => none)) :=
  fun xml => ⟨getIndexKinds_error_iff xml, fun _ h => getIndexKinds_ok_eq h⟩

theorem claim7_witness :
    ([("class", "OK")] : List (String × String))
      = xmlNoKind.compounds.filterMap (fun c =>
          match c.kind, c.refid with
          | some k, some r => some (k, r)
          | _, _ => none) :=
  (claim7_amended_only_missing_elements_fatal xmlNoKind).2
    [("class", "OK")] rfl

/-- C8 counterexample: swapping the two group compounds (a permutation
within a single phase, kind groupings preserved) yields final stores that
are not isomorphic: the class `D` is claimed by both groups, and its
`parent` back-reference records whichever group was processed last, so no
refid-preserving isomorphism between the two results exists. -/
theorem claim8_counterexample :
    xmlPermB.compounds.Perm xmlPermA.compounds ∧
    load docsPerm xmlPermA 20 = Except.ok stPermA ∧
    load docsPerm xmlPermB 20 = Except.ok stPermB ∧
    ¬ TreeIso stPermA stPermB := by
  refine ⟨by decide, rfl, rfl, ?_⟩
  rintro ⟨φ, hφ0, hmem⟩
  obtain ⟨m1, r1, k1, p1, c1⟩ := hmem 1 (by decide)
  obtain ⟨m3, r3, k3, p3, c3⟩ := hmem 3 (by decide)
  have hB : nodeIds stPermB = [3, 2, 1, 0] := by decide
  have hφ1 : φ 1 = 1 := by
    rw [hB] at m1
    have rA : refidOf stPermA 1 = "D" := by decide
    rw [rA] at r1
    simp only [List.mem_cons, List.not_mem_nil, or_false] at m1
    rcases m1 with h | h | h | h
    · rw [h] at r1; exact absurd r1 (by decide)
    · rw [h] at r1; exact absurd r1 (by decide)
    · exact h
    · rw [h] at r1; exact absurd r1 (by decide)
  have hφ3 : φ 3 = 2 := by
    rw [hB] at m3
    have rA : refidOf stPermA 3 = "H2" := by decide
    rw [rA] at r3
    simp only [List.mem_cons, List.not_mem_nil, or_false] at m3
    rcases m3 with h | h | h | h
    · rw [h] at r3; exact absurd r3 (by decide)
    · exact h
    · rw [h] at r3; exact absurd r3 (by decide)
    · rw [h] at r3; exact absurd r3 (by decide)
  have pA : parentOf stPermA 1 = some 3 := by decide
  rw [hφ1, pA] at p1
  have pB : parentOf stPermB 1 = some 3 := by decide
  rw [pB] at p1
  have p1' : (3 : Nat) = φ 3 := by
    have h' : (some 3 : Option Nat) = some (φ 3) := p1
    injection h'
  rw [hφ3] at p1'
  exact absurd p1' (by decide)

/-- C8 amended: permuting the `<compound>` elements permutes the kind/refid
list read from the index and each phase's filtered processing sequence
(kind groupings are preserved); given a fixed document order the
construction is a pure function of the index and documents, but the final
trees for two permuted orders need not be isomorphic (see the
counterexample: the parent back-reference of a doubly-claimed node depends
on the processing order). -/
theorem claim8_amended_permutation :
    ∀ (h : Bool) (c1 c2 : List Compound), c1.Perm c2 →
      ∀ ks1 ks2, getIndexKinds ⟨h, c1⟩ = Except.ok ks1 →
        getIndexKinds ⟨h, c2⟩ = Except.ok ks2 →
        ks1.Perm ks2 ∧
        ∀ pred : String → Bool,
          (ks1.filter (fun p => pred p.1)).Perm
            (ks2.filter (fun p => pred p.1)) := by
  intro h c1 c2 hperm ks1 ks2 h1 h2
  have e1 := getIndexKinds_ok_eq h1
  have e2 := getIndexKinds_ok_eq h2
  rw [e1, e2]
  constructor
  · exact hperm.filterMap _
  · intro pred
    exact (hperm.filterMap _).filter _

theorem claim8_witness :
    getIndexKinds xmlPermA
      = Except.ok [("class", "D"), ("group", "H1"), ("group", "H2")] ∧
    ([("class", "D"), ("group", "H1"), ("group", "H2")] :
        List (String × String)).Perm
      [("class", "D"), ("group", "H2"), ("group", "H1")] :=
  ⟨rfl, (claim8_amended_permutation true xmlPermA.compounds
    xmlPermB.compounds (by decide)
    [("class", "D"), ("group", "H1"), ("group", "H2")]
    [("class", "D"), ("group", "H2"), ("group", "H1")] rfl rfl).1⟩

/-- C9: a cleanup pass on node `n` mutates only `n`'s `children` sequence:
every other node is entirely unchanged (refid, kind, parent and children),
the cache and the allocation counter are unchanged, and `n` itself keeps
its refid, kind and parent, its children being filtered to those whose
back-reference is `n`.  In particular cleanup never recurses into non-root
nodes. -/
theorem claim9_cleanup_frame :
    ∀ (st : Store) (n i : Nat), i ≠ n →
      lookupN (cleanup st n) i = lookupN st i ∧
      (cleanup st n).cache = st.cache ∧
      (cleanup st n).next = st.next ∧
      (∀ nd, lookupN st n = some nd →
        lookupN (cleanup st n) n = some { nd with
          children := nd.children.filter
            (fun c => parentOf st c == some n) }) := by
  intro st n i hin
  refine ⟨lookupN_updateN_ne st n _ hin, rfl, rfl, ?_⟩
  intro nd hnd
  unfold cleanup
  rw [lookupN_updateN, if_pos rfl, hnd]
  rfl

theorem claim9_witness :
    lookupN (cleanup stABC 0) 1 = lookupN stABC 1 :=
  (claim9_cleanup_frame stABC 0 1 (by decide)).1

/-- C10: an index whose `doxygenindex` root contains zero `<compound>`
elements makes the whole load fail with the fatal "no compound" error,
even though individual compound failures are recoverable. -/
theorem claim10_empty_index_fatal :
    ∀ (docs : String → Option Doc) (fuel : Nat) (xml : IndexXml),
      xml.hasRoot = true → xml.compounds = [] →
      load docs xml fuel = Except.error "No compound element" := by
  intro docs fuel xml h1 h2
  unfold load getIndexKinds
  rw [h1, h2]
  rfl

theorem claim10_witness :
    load docsOK ⟨true, []⟩ 5 = Except.error "No compound element" :=
  claim10_empty_index_fatal docsOK 5 ⟨true, []⟩ rfl rfl

end Doxydown
